import Mathlib

/-!
Verification of the pyEOS configuration core (`pyEOS/config.py`):
the three-level configuration parser `EOSConf._parse_config`, the
serializer `EOSConf.to_string`, and the tree differ
`EOSConf.compare_config`.

The Python data model is nested dictionaries: a top-level `OrderedDict`
maps command text to nodes holding a `comments` list and a `cmds`
ordered dictionary,
depth-3 entries map to `None`.  We embed that shape as the inductive
`Val` below; ordered dictionaries become association lists with
first-occurrence update (which is exactly the `OrderedDict` update
semantics for the unique-key dictionaries the code builds).
-/

set_option maxRecDepth 10000

/-- A Python value stored in the command dictionaries: either `None`
(the terminal marker used for depth-3 entries) or a node
a node holding `comments` and `cmds` fields. -/
inductive Val where
  | term : Val
  | node (comments : List String) (cmds : List (String × Val)) : Val

/-- The top-level `cmds` ordered dictionary of an `EOSConf` object. -/
abbrev ConfTree := List (String × Val)

/-- Keys of an ordered dictionary, in insertion order. -/
def keys (l : List (String × Val)) : List String := l.map (·.1)

/-- Dictionary lookup `d[k]` (first matching entry). -/
def lookupOD (k : String) : List (String × Val) → Option Val
  | [] => none
  | kv :: rest => if kv.1 = k then some kv.2 else lookupOD k rest

/-- Dictionary update `d[k] = v` with `OrderedDict` semantics: an existing
key keeps its position and gets the new value, a new key is appended. -/
def insertOD (k : String) (v : Val) : List (String × Val) → List (String × Val)
  | [] => [(k, v)]
  | kv :: rest => if kv.1 = k then (k, v) :: rest else kv :: insertOD k v rest

/-- Python whitespace characters stripped by `str.strip()`. -/
def isPySpace (c : Char) : Bool :=
  c = ' ' || c = '\t' || c = '\n' || c = '\r' || c = '\x0b' || c = '\x0c'

/-- `str.strip()` on the character list: drop whitespace at both ends. -/
def pyStripData (l : List Char) : List Char :=
  ((l.dropWhile isPySpace).reverse.dropWhile isPySpace).reverse

/-- Python `line.strip()`. -/
def pyStrip (s : String) : String := ⟨pyStripData s.data⟩

/-- Python `line.strip('\n')`: drop newline characters at both ends. -/
def stripNL (s : String) : String :=
  ⟨((s.data.dropWhile (· = '\n')).reverse.dropWhile (· = '\n')).reverse⟩

/-- Python `s.startswith(pre)`. -/
def pyStartswith (s pre : String) : Bool := pre.data.isPrefixOf s.data

/-- Worker for Python 2 `str.splitlines()`: a line ends at `'\n'`, at
`'\r'`, or at the two-character boundary `'\r\n'` (consumed as a
single break). -/
def splitlinesGo : List Char → List Char → List (List Char)
  | [], acc => if acc.isEmpty then [] else [acc.reverse]
  | [c], acc =>
    if c = '\n' || c = '\r' then [acc.reverse] else [(c :: acc).reverse]
  | c :: d :: rest, acc =>
    if c = '\n' then acc.reverse :: splitlinesGo (d :: rest) []
    else if c = '\r' then
      if d = '\n' then acc.reverse :: splitlinesGo rest []
      else acc.reverse :: splitlinesGo (d :: rest) []
    else splitlinesGo (d :: rest) (c :: acc)

/-- Python 2 `s.splitlines()` (boundaries `'\n'`, `'\r'` and `'\r\n'`):
no trailing empty line for a string ending in a line break, and
`"".splitlines() == []`. -/
def pySplitlines (s : String) : List String :=
  (splitlinesGo s.data []).map (fun l => ⟨l⟩)

/-- Parse error.  The source crashes with an undefined reference
(`KeyError`/`NameError`/`TypeError`) when an indented line has no valid
parent context; the spec names this failure `MalformedConfigError`, so
the embedding reports it as such, carrying the offending line. -/
structure MalformedConfigError where
  line : String
  deriving DecidableEq, Repr

/-- Parser state: the dictionary built so far plus the two parsing
cursors `prev_key` (current depth-1 context) and `sub_prev_key`
(most recently seen depth-2 text).  Both start unset. -/
structure PState where
  cmds : ConfTree
  prev : Option String
  subPrev : Option String

/-- The depth-3 branch of the parse loop:
store `None` under `line.strip()` inside the `cmds` dictionary of
`sub_prev_key` inside the `cmds` dictionary of `prev_key`.
Any failed dictionary access along the chain is the crash reported as
`MalformedConfigError`. -/
def parseDepth3 (st : PState) (line : String) : Except MalformedConfigError PState :=
  match st.prev with
  | none => .error ⟨line⟩
  | some p =>
    match lookupOD p st.cmds with
    | some (Val.node com sub) =>
      match st.subPrev with
      | none => .error ⟨line⟩
      | some s =>
        match lookupOD s sub with
        | some (Val.node com2 leaves) =>
          let leaves2 := insertOD (pyStrip line) Val.term leaves
          let sub2 := insertOD s (Val.node com2 leaves2) sub
          .ok { st with cmds := insertOD p (Val.node com sub2) st.cmds }
        | _ => .error ⟨line⟩
    | _ => .error ⟨line⟩

/-- The depth-2 branch of the parse loop: `sub_prev_key = line.strip()`
followed by storing a fresh dictionary under `sub_prev_key` inside the
`cmds` dictionary of `prev_key` (with fresh
`comments`/`cmds` fields). -/
def parseDepth2 (st : PState) (line : String) : Except MalformedConfigError PState :=
  match st.prev with
  | none => .error ⟨line⟩
  | some p =>
    match lookupOD p st.cmds with
    | some (Val.node com sub) =>
      let s := pyStrip line
      let sub2 := insertOD s (Val.node [] []) sub
      .ok { cmds := insertOD p (Val.node com sub2) st.cmds, prev := st.prev, subPrev := some s }
    | _ => .error ⟨line⟩

/-- The depth-1 branch of the parse loop: `prev_key = line` and
`cmds[line] = dict()` (with fresh `comments`/`cmds` fields).  Note the
key is the line with only newlines stripped, not whitespace. -/
def parseDepth1 (st : PState) (line : String) : Except MalformedConfigError PState :=
  .ok { cmds := insertOD line (Val.node [] []) st.cmds, prev := some line, subPrev := st.subPrev }

/-- One iteration of the loop body of `EOSConf._parse_config`: skip
blank and column-0 comment lines, otherwise dispatch on the leading
6-space / 3-space indentation, in that order. -/
def parseLine (st : PState) (rawLine : String) : Except MalformedConfigError PState :=
  let line := stripNL rawLine
  if (pyStrip line == "") || pyStartswith line "!" then
    .ok st
  else if pyStartswith line "      " then
    parseDepth3 st line
  else if pyStartswith line "   " then
    parseDepth2 st line
  else
    parseDepth1 st line

/-- The parse loop over the line sequence. -/
def parseLinesSt : List String → PState → Except MalformedConfigError PState
  | [], st => .ok st
  | l :: rest, st =>
    match parseLine st l with
    | .ok st1 => parseLinesSt rest st1
    | .error e => .error e

/-- `EOSConf._parse_config` on an already-split sequence of lines. -/
def parse_config (lines : List String) : Except MalformedConfigError ConfTree :=
  match parseLinesSt lines ⟨[], none, none⟩ with
  | .ok st => .ok st.cmds
  | .error e => .error e

/-- `EOSConf._parse_config` on a raw configuration string
(the string is split into lines first, as in the source). -/
def parseString (s : String) : Except MalformedConfigError ConfTree :=
  parse_config (pySplitlines s)

/-- Python subscript access of the `cmds` field: succeeds on a node, raises
(`TypeError`) on `None`. -/
def getCmds : Val → Option (List (String × Val))
  | Val.term => none
  | Val.node _ c => some c

/-- The depth-3 segment of `EOSConf.to_string`: one 6-space indented
line per depth-3 key. -/
def serLeaves : List (String × Val) → String
  | [] => ""
  | kv :: rest => "      " ++ kv.1 ++ "\n" ++ serLeaves rest

/-- The depth-2 segment of `EOSConf.to_string`: one 3-space indented
line per depth-2 key, each followed by its depth-3 lines. -/
def serSubs : List (String × Val) → Option String
  | [] => some ""
  | kv :: rest =>
    match getCmds kv.2 with
    | none => none
    | some leaves =>
      match serSubs rest with
      | none => none
      | some tail => some ("   " ++ kv.1 ++ "\n" ++ serLeaves leaves ++ tail)

/-- `EOSConf.to_string`: root keys unindented, depth-2 keys behind 3
spaces, depth-3 keys behind 6 spaces, each line ending in a newline.
Returns `none` where Python would raise (a `cmds` subscript on `None`). -/
def to_string : ConfTree → Option String
  | [] => some ""
  | kv :: rest =>
    match getCmds kv.2 with
    | none => none
    | some sub =>
      match serSubs sub with
      | none => none
      | some subTxt =>
        match to_string rest with
        | none => none
        | some tail => some (kv.1 ++ "\n" ++ subTxt ++ tail)

/-- The `config` argument of the inner `_print` helper of
`EOSConf.compare_config`: either an `EOSConf` object (top-level calls)
or a plain dictionary (the nested depth-2 calls). -/
inductive PyObj where
  | conf (cmds : ConfTree)
  | dict (d : List (String × Val))

/-- Python attribute access `config.cmds`: succeeds on an `EOSConf`
object, raises `AttributeError` on a plain dictionary. -/
def attrCmds : PyObj → Option ConfTree
  | .conf c => some c
  | .dict _ => none

/-- The `_print(action, list, config)` helper of `EOSConf.compare_config`.
For each command it emits `<action> <cmd>` and then the keys of
the `cmds` dictionary under `config.cmds[cmd]` as bare lines; an
`AttributeError` from
`config.cmds` is caught (`except AttributeError: pass`) AFTER the action
line was already appended, so a dictionary `config` yields only the bare
action lines.  A `KeyError`/`TypeError` (command missing from `config`,
or its value `None`) is not caught and aborts the whole comparison,
modelled as `none`. -/
def printDiff (action : String) : List String → PyObj → Option String
  | [], _ => some ""
  | cmd :: rest, config =>
    let head :=
      match attrCmds config with
      | none => some (action ++ " " ++ cmd ++ "\n")
      | some cmds =>
        match lookupOD cmd cmds with
        | none => none
        | some v =>
          match getCmds v with
          | none => none
          | some sub => some (action ++ " " ++ cmd ++ "\n" ++ String.join (sub.map (fun p => p.1 ++ "\n")))
    match head with
    | none => none
    | some h =>
      match printDiff action rest config with
      | none => none
      | some tail => some (h ++ tail)

/-- Python `set(a) - set(b)` for key lists, iterated in the insertion
order of `a` (the concrete iteration order of a Python set is
unspecified; the embedding fixes first-operand insertion order). -/
def setDiff (a b : List String) : List String :=
  a.filter (fun k => !(b.contains k))

/-- Python `set(a) & set(b)` for key lists, iterated in the insertion
order of `a`. -/
def setInter (a b : List String) : List String :=
  a.filter (fun k => b.contains k)

/-- The innermost loop of `EOSConf.compare_config` (over the kept
depth-2 keys of a kept root): emits the depth-2 key as a header when
its depth-3 key sets differ, then `"  + "`/`"  - "` lines, one per
added/removed depth-3 key — but printing the depth-2 key text `scmd`
each time (the loop variable `cmd` is unused in the source). -/
def diffKept3 (mine sother : List (String × Val)) : List String → Option String
  | [] => some ""
  | scmd :: rest =>
    match lookupOD scmd mine with
    | none => none
    | some vm =>
      match getCmds vm with
      | none => none
      | some morig =>
        match lookupOD scmd sother with
        | none => none
        | some vo =>
          match getCmds vo with
          | none => none
          | some mcand =>
            let newK := setDiff (keys mcand) (keys morig)
            let oldK := setDiff (keys morig) (keys mcand)
            let sec :=
              if newK.length > 0 || oldK.length > 0 then
                scmd ++ "\n" ++ String.join (newK.map (fun _ => "  + " ++ scmd ++ "\n"))
                  ++ String.join (oldK.map (fun _ => "  - " ++ scmd ++ "\n"))
              else ""
            match diffKept3 mine sother rest with
            | none => none
            | some tail => some (sec ++ tail)

/-- The loop of `EOSConf.compare_config` over the kept root keys:
depth-2 set difference, optional root header, `+`/`-` lines via the
nested `_print` calls (which receive plain dictionaries), then the
depth-3 loop. -/
def diffKept (self other : ConfTree) : List String → Option String
  | [] => some ""
  | cmd :: rest =>
    match lookupOD cmd self with
    | none => none
    | some vm =>
      match getCmds vm with
      | none => none
      | some mine =>
        match lookupOD cmd other with
        | none => none
        | some vo =>
          match getCmds vo with
          | none => none
          | some sother =>
            let added := setDiff (keys sother) (keys mine)
            let removed := setDiff (keys mine) (keys sother)
            let keep2 := setInter (keys sother) (keys mine)
            match printDiff "+" added (PyObj.dict sother) with
            | none => none
            | some addText =>
              match printDiff "-" removed (PyObj.dict mine) with
              | none => none
              | some remText =>
                let header := if addText ≠ "" || remText ≠ "" then cmd ++ "\n" else ""
                match diffKept3 mine sother keep2 with
                | none => none
                | some subText =>
                  match diffKept self other rest with
                  | none => none
                  | some tail => some (header ++ addText ++ remText ++ subText ++ tail)

/-- `EOSConf.compare_config`: depth-1 additions, depth-1 removals, then
the per-kept-root section, concatenated in that order. -/
def compare_config (self other : ConfTree) : Option String :=
  let added := setDiff (keys other) (keys self)
  let removed := setDiff (keys self) (keys other)
  let keep := setInter (keys other) (keys self)
  match printDiff "+" added (PyObj.conf other) with
  | none => none
  | some t1 =>
    match printDiff "-" removed (PyObj.conf self) with
    | none => none
    | some t2 =>
      match diffKept self other keep with
      | none => none
      | some t3 => some (t1 ++ t2 ++ t3)

/-- Is the value the terminal marker `None`? -/
def matchTerm : Val → Bool
  | Val.term => true
  | Val.node _ _ => false

/-- No duplicate keys. -/
def nodupB : List String → Bool
  | [] => true
  | k :: rest => !(rest.contains k) && nodupB rest

/-- Depth-2 entry carries a node value. -/
def wf2Sub : (String × Val) → Bool
  | (_, Val.term) => false
  | (_, Val.node _ _) => true

/-- Root entry carries a node value whose depth-2 values are nodes. -/
def wf2Root : (String × Val) → Bool
  | (_, Val.term) => false
  | (_, Val.node _ sub) => sub.all wf2Sub

/-- Well-formedness needed by the differ: every root and depth-2 value
is a node (so the dictionary accesses of `compare_config` succeed). -/
def wf2 (t : ConfTree) : Bool := t.all wf2Root

/-- Depth-2 entry carries a node value all of whose depth-3 values are
the terminal marker. -/
def wf3Sub : (String × Val) → Bool
  | (_, Val.term) => false
  | (_, Val.node _ leaves) => leaves.all (fun kv => matchTerm kv.2)

/-- Root entry of a depth-bounded tree. -/
def wf3Root : (String × Val) → Bool
  | (_, Val.term) => false
  | (_, Val.node _ sub) => sub.all wf3Sub

/-- The three-level shape invariant: root and depth-2 values are nodes,
every depth-3 value is the terminal marker (no fourth level). -/
def wf3 (t : ConfTree) : Bool := t.all wf3Root

/-- Key uniqueness of a depth-2 value (its depth-3 key list). -/
def nodup3 : (String × Val) → Bool
  | (_, Val.term) => true
  | (_, Val.node _ c2) => nodupB (keys c2)

/-- Key uniqueness of a root value, at depth 2 and below. -/
def nodup2 : (String × Val) → Bool
  | (_, Val.term) => true
  | (_, Val.node _ c) => nodupB (keys c) && c.all nodup3

/-- Key uniqueness at every level of the tree. -/
def treeNodupB (t : ConfTree) : Bool := nodupB (keys t) && t.all nodup2

/-- First and last character exist and are not whitespace:
exactly the strings fixed by `str.strip()` (and nonempty). -/
def strippedNonempty (l : List Char) : Bool :=
  match l, l.reverse with
  | c :: _, d :: _ => !isPySpace c && !isPySpace d
  | _, _ => false

/-- A string that the parser accepts unchanged as a depth-1 key:
nonblank, not a comment, unindented, and free of line-break characters
(`splitlines` would cut a key holding `'\n'` or `'\r'` into several
lines). -/
def goodRootKey (k : String) : Bool :=
  !(pyStrip k == "") && !(pyStartswith k "!") && !(pyStartswith k "   ")
    && !(k.data.contains '\n') && !(k.data.contains '\r')

/-- A string that the parser accepts unchanged as a depth-2/3 key:
already stripped, nonempty, and free of line-break characters. -/
def goodSubKey (k : String) : Bool :=
  strippedNonempty k.data && !(k.data.contains '\n') && !(k.data.contains '\r')

/-- Serializable depth-3 entry: good key, terminal value. -/
def serialWFLeaf : (String × Val) → Bool
  | (k, v) => goodSubKey k && matchTerm v

/-- Serializable depth-2 entry. -/
def serialWFSub : (String × Val) → Bool
  | (k, Val.node com2 leaves) =>
    goodSubKey k && com2.isEmpty && nodupB (keys leaves) && leaves.all serialWFLeaf
  | (_, Val.term) => false

/-- Serializable root entry. -/
def serialWFRoot : (String × Val) → Bool
  | (k, Val.node com sub) =>
    goodRootKey k && com.isEmpty && nodupB (keys sub) && sub.all serialWFSub
  | (_, Val.term) => false

/-- A well-formed tree as produced by the parser: unique keys per
parent, empty comment lists, terminal depth-3 values, and key strings
that survive the serialize/parse round trip unchanged. -/
def serialWF (t : ConfTree) : Bool := nodupB (keys t) && t.all serialWFRoot

/-- The keys of a node value (empty for the terminal marker). -/
def subKeysOf : Val → List String
  | Val.term => []
  | Val.node _ c => keys c

/-- The comparison view of a tree: root keys, per-root depth-2 keys,
per-depth-2 depth-3 keys — the projection used by the round-trip
property. -/
def keyView (t : ConfTree) : List (String × List (String × List String)) :=
  t.map (fun kv => (kv.1,
    match kv.2 with
    | Val.term => []
    | Val.node _ c => c.map (fun kv2 => (kv2.1, subKeysOf kv2.2))))

/-- The skip condition of the parse loop: blank after stripping, or a
comment marker in column 0. -/
def ignoredLine (l : String) : Bool :=
  (pyStrip (stripNL l) == "") || pyStartswith (stripNL l) "!"

/-- Total projection to the `cmds` list of a node (empty on the
terminal marker); used to state serialization line lists. -/
def valCmds : Val → List (String × Val)
  | Val.term => []
  | Val.node _ c => c

/-- The text lines that the leaves of a depth-2 entry serialize to. -/
def leafLines (leaves : List (String × Val)) : List String :=
  leaves.map (fun kv => "      " ++ kv.1)

/-- The text lines that the depth-2 entries of a root serialize to. -/
def subLines (sub : List (String × Val)) : List String :=
  sub.flatMap (fun kv => ("   " ++ kv.1) :: leafLines (valCmds kv.2))

/-- The text lines a whole tree serializes to. -/
def treeLines (t : ConfTree) : List String :=
  t.flatMap (fun kv => kv.1 :: subLines (valCmds kv.2))

/-- Join lines with a trailing newline on each. -/
def linesJoin : List String → String
  | [] => ""
  | l :: rest => l ++ "\n" ++ linesJoin rest

/-- The depth-2 keys stored under root key `k` of `t` (empty when `k`
is absent or terminal). -/
def childKeys (t : ConfTree) (k : String) : List String :=
  match lookupOD k t with
  | some (Val.node _ c) => keys c
  | _ => []

/-- Rendering of a top-level `_print` call: for each key an
`<action> <key>` line followed by the children of that key as bare
lines. -/
def specPrintRoot (action : String) : List String → ConfTree → String
  | [], _ => ""
  | cmd :: rest, t =>
    action ++ " " ++ cmd ++ "\n" ++ String.join ((childKeys t cmd).map (· ++ "\n"))
      ++ specPrintRoot action rest t

/-- Rendering of a nested `_print` call (the `config` argument is a
plain dictionary, so the child rendering dies on `AttributeError` and
only the bare `<action> <key>` lines survive). -/
def specPrintNested (action : String) : List String → String
  | [] => ""
  | cmd :: rest => action ++ " " ++ cmd ++ "\n" ++ specPrintNested action rest

/-- The depth-3 keys stored under depth-2 key `k` of dictionary `d`. -/
def subChildKeys (d : List (String × Val)) (k : String) : List String :=
  match lookupOD k d with
  | some (Val.node _ c) => keys c
  | _ => []

/-- Rendering of the innermost loop body for one kept depth-2 key:
header plus `"  + "`/`"  - "` lines that all carry the header text
(the source prints `scmd`, not the depth-3 key). -/
def spec3 (mine sother : List (String × Val)) (scmd : String) : String :=
  let newK := setDiff (subChildKeys sother scmd) (subChildKeys mine scmd)
  let oldK := setDiff (subChildKeys mine scmd) (subChildKeys sother scmd)
  if newK.length > 0 || oldK.length > 0 then
    scmd ++ "\n" ++ String.join (newK.map (fun _ => "  + " ++ scmd ++ "\n"))
      ++ String.join (oldK.map (fun _ => "  - " ++ scmd ++ "\n"))
  else ""

/-- Join of `spec3` over the kept depth-2 keys. -/
def spec3s (mine sother : List (String × Val)) : List String → String
  | [] => ""
  | scmd :: rest => spec3 mine sother scmd ++ spec3s mine sother rest

/-- Rendering of the section of one kept root key: optional root header
(emitted exactly when a depth-2 key was added or removed), bare `+`
lines, bare `-` lines, then the depth-3 subsections. -/
def specSection (self other : ConfTree) (cmd : String) : String :=
  match lookupOD cmd self, lookupOD cmd other with
  | some (Val.node _ mine), some (Val.node _ sother) =>
    let added := setDiff (keys sother) (keys mine)
    let removed := setDiff (keys mine) (keys sother)
    let keep2 := setInter (keys sother) (keys mine)
    let addText := specPrintNested "+" added
    let remText := specPrintNested "-" removed
    (if addText ≠ "" || remText ≠ "" then cmd ++ "\n" else "")
      ++ addText ++ remText ++ spec3s mine sother keep2
  | _, _ => ""

/-- Join of `specSection` over the kept root keys. -/
def specSections (self other : ConfTree) : List String → String
  | [] => ""
  | cmd :: rest => specSection self other cmd ++ specSections self other rest

/-- The full spec-level rendering of the diff output. -/
def specDiff (self other : ConfTree) : String :=
  specPrintRoot "+" (setDiff (keys other) (keys self)) other
    ++ specPrintRoot "-" (setDiff (keys self) (keys other)) self
    ++ specSections self other (setInter (keys other) (keys self))

theorem lookupOD_insertOD_self (k : String) (v : Val) (l : List (String × Val)) :
    lookupOD k (insertOD k v l) = some v := by
  induction l with
  | nil => simp [insertOD, lookupOD]
  | cons kv rest ih =>
    by_cases h : kv.1 = k
    · simp [insertOD, lookupOD, h]
    · simp [insertOD, lookupOD, h, ih]

theorem lookupOD_insertOD_ne {q k : String} (v : Val) (l : List (String × Val))
    (h : q ≠ k) : lookupOD q (insertOD k v l) = lookupOD q l := by
  induction l with
  | nil =>
    simp only [insertOD, lookupOD]
    rw [if_neg (fun hh : k = q => h hh.symm)]
  | cons kv rest ih =>
    by_cases hk : kv.1 = k
    · simp only [insertOD, if_pos hk, lookupOD]
      rw [if_neg (fun hh : k = q => h hh.symm), if_neg (fun hh : kv.1 = q => h (hh.symm.trans hk))]
    · simp only [insertOD, if_neg hk, lookupOD]
      by_cases hq : kv.1 = q
      · rw [if_pos hq, if_pos hq]
      · rw [if_neg hq, if_neg hq, ih]

theorem insertOD_insertOD_same (k : String) (v w : Val) (l : List (String × Val)) :
    insertOD k v (insertOD k w l) = insertOD k v l := by
  induction l with
  | nil => simp [insertOD]
  | cons kv rest ih =>
    by_cases h : kv.1 = k
    · simp [insertOD, h]
    · simp [insertOD, h, ih]

theorem insertOD_lookup_id {k : String} {v : Val} {l : List (String × Val)}
    (h : lookupOD k l = some v) : insertOD k v l = l := by
  induction l with
  | nil => simp [lookupOD] at h
  | cons kv rest ih =>
    by_cases hk : kv.1 = k
    · simp only [lookupOD, if_pos hk] at h
      cases h
      simp only [insertOD, if_pos hk]
      rw [← hk]
    · simp only [lookupOD, if_neg hk] at h
      simp only [insertOD, if_neg hk]
      rw [ih h]

theorem insertOD_of_not_mem {k : String} (v : Val) {l : List (String × Val)}
    (h : k ∉ keys l) : insertOD k v l = l ++ [(k, v)] := by
  induction l with
  | nil => simp [insertOD]
  | cons kv rest ih =>
    simp only [keys, List.map_cons, List.mem_cons, not_or] at h
    simp only [insertOD, if_neg (fun hh : kv.1 = k => h.1 hh.symm), List.cons_append]
    rw [ih]
    intro hm
    exact h.2 hm

theorem lookupOD_append_left {k : String} {l : List (String × Val)}
    (h : k ∉ keys l) (l2 : List (String × Val)) :
    lookupOD k (l ++ l2) = lookupOD k l2 := by
  induction l with
  | nil => simp
  | cons kv rest ih =>
    simp only [keys, List.map_cons, List.mem_cons, not_or] at h
    simp only [List.cons_append, lookupOD, if_neg (fun hh : kv.1 = k => h.1 hh.symm)]
    exact ih h.2

theorem insertOD_append_last {k : String} (v w : Val) {l : List (String × Val)}
    (h : k ∉ keys l) : insertOD k v (l ++ [(k, w)]) = l ++ [(k, v)] := by
  induction l with
  | nil => simp [insertOD]
  | cons kv rest ih =>
    simp only [keys, List.map_cons, List.mem_cons, not_or] at h
    simp only [List.cons_append, insertOD, if_neg (fun hh : kv.1 = k => h.1 hh.symm)]
    exact congrArg (fun l => kv :: l) (ih h.2)

theorem mem_of_lookupOD {k : String} {v : Val} {l : List (String × Val)}
    (h : lookupOD k l = some v) : (k, v) ∈ l := by
  induction l with
  | nil => simp [lookupOD] at h
  | cons kv rest ih =>
    by_cases hk : kv.1 = k
    · simp only [lookupOD, if_pos hk] at h
      cases h
      rw [← hk]
      exact List.mem_cons_self _ _
    · simp only [lookupOD, if_neg hk] at h
      exact List.mem_cons_of_mem _ (ih h)

theorem keys_insertOD (k : String) (v : Val) (l : List (String × Val)) :
    keys (insertOD k v l) = if k ∈ keys l then keys l else keys l ++ [k] := by
  induction l with
  | nil => simp [insertOD, keys]
  | cons kv rest ih =>
    by_cases h : kv.1 = k
    · subst h
      simp [insertOD, keys]
    · have hne : ¬ k = kv.1 := fun hh => h hh.symm
      simp only [insertOD, if_neg h, keys, List.map_cons] at ih ⊢
      rw [ih]
      by_cases hm : k ∈ List.map (fun x => x.1) rest
      · rw [if_pos hm, if_pos (List.mem_cons_of_mem _ hm)]
      · rw [if_neg hm, if_neg (by simp [List.mem_cons, hne, hm]), List.cons_append]

theorem lookupOD_eq_none_of_not_mem {k : String} {l : List (String × Val)}
    (h : k ∉ keys l) : lookupOD k l = none := by
  induction l with
  | nil => simp [lookupOD]
  | cons kv rest ih =>
    simp only [keys, List.map_cons, List.mem_cons, not_or] at h
    simp only [lookupOD, if_neg (fun hh : kv.1 = k => h.1 hh.symm)]
    exact ih h.2

theorem nodupB_iff {l : List String} : nodupB l = true ↔ l.Nodup := by
  induction l with
  | nil => simp [nodupB]
  | cons k rest ih =>
    simp [nodupB, List.nodup_cons, ih, List.elem_iff]

theorem nodupB_keys_insertOD {k : String} (v : Val) {l : List (String × Val)}
    (h : nodupB (keys l) = true) : nodupB (keys (insertOD k v l)) = true := by
  rw [nodupB_iff] at h ⊢
  rw [keys_insertOD]
  by_cases hm : k ∈ keys l
  · rwa [if_pos hm]
  · rw [if_neg hm]
    rw [List.nodup_append]
    exact ⟨h, List.nodup_singleton k, by simpa using fun hk => hm hk⟩

theorem all_insertOD {P : (String × Val) → Bool} {k : String} {v : Val} {l : List (String × Val)}
    (h : l.all P = true) (hv : P (k, v) = true) : (insertOD k v l).all P = true := by
  induction l with
  | nil => simpa [insertOD]
  | cons kv rest ih =>
    simp only [List.all_cons, Bool.and_eq_true] at h
    by_cases hk : kv.1 = k
    · simp [insertOD, if_pos hk, hv, h.2]
    · simp [insertOD, if_neg hk, h.1, ih h.2]

theorem all_of_mem {P : (String × Val) → Bool} {l : List (String × Val)} {kv : String × Val}
    (h : l.all P = true) (hm : kv ∈ l) : P kv = true := by
  rw [List.all_eq_true] at h
  exact h kv hm

theorem parseLine_skip {st : PState} {l : String}
    (h : ((pyStrip (stripNL l) == "") || pyStartswith (stripNL l) "!") = true) :
    parseLine st l = .ok st := by
  simp [parseLine, h]

theorem parseLine_d3 {st : PState} {l : String}
    (h1 : ((pyStrip (stripNL l) == "") || pyStartswith (stripNL l) "!") = false)
    (h2 : pyStartswith (stripNL l) "      " = true) :
    parseLine st l = parseDepth3 st (stripNL l) := by
  simp [parseLine, h1, h2]

theorem parseLine_d2 {st : PState} {l : String}
    (h1 : ((pyStrip (stripNL l) == "") || pyStartswith (stripNL l) "!") = false)
    (h2 : pyStartswith (stripNL l) "      " = false)
    (h3 : pyStartswith (stripNL l) "   " = true) :
    parseLine st l = parseDepth2 st (stripNL l) := by
  simp [parseLine, h1, h2, h3]

theorem parseLine_d1 {st : PState} {l : String}
    (h1 : ((pyStrip (stripNL l) == "") || pyStartswith (stripNL l) "!") = false)
    (h2 : pyStartswith (stripNL l) "      " = false)
    (h3 : pyStartswith (stripNL l) "   " = false) :
    parseLine st l = parseDepth1 st (stripNL l) := by
  simp [parseLine, h1, h2, h3]

theorem parseDepth1_nodup {st : PState} {line : String} {st2 : PState}
    (h : parseDepth1 st line = .ok st2) (hn : treeNodupB st.cmds = true) :
    treeNodupB st2.cmds = true := by
  cases h
  simp only [treeNodupB, Bool.and_eq_true] at hn ⊢
  refine ⟨nodupB_keys_insertOD _ hn.1, all_insertOD hn.2 ?_⟩
  simp [nodup2, nodupB, keys]

theorem parseDepth2_nodup {st : PState} {line : String} {st2 : PState}
    (h : parseDepth2 st line = .ok st2) (hn : treeNodupB st.cmds = true) :
    treeNodupB st2.cmds = true := by
  cases hp : st.prev with
  | none =>
    simp only [parseDepth2, hp] at h
    exact absurd h (by simp)
  | some p =>
    cases hl : lookupOD p st.cmds with
    | none =>
      simp only [parseDepth2, hp, hl] at h
      exact absurd h (by simp)
    | some v =>
      cases v with
      | term =>
        simp only [parseDepth2, hp, hl] at h
        exact absurd h (by simp)
      | node com sub =>
        simp only [parseDepth2, hp, hl, Except.ok.injEq] at h
        subst h
        simp only [treeNodupB, Bool.and_eq_true] at hn ⊢
        have hmem := mem_of_lookupOD hl
        have hsub : nodup2 (p, Val.node com sub) = true := all_of_mem hn.2 hmem
        simp only [nodup2, Bool.and_eq_true] at hsub
        refine ⟨nodupB_keys_insertOD _ hn.1, all_insertOD hn.2 ?_⟩
        simp only [nodup2, Bool.and_eq_true]
        refine ⟨nodupB_keys_insertOD _ hsub.1, all_insertOD hsub.2 ?_⟩
        simp [nodup3, nodupB, keys]

theorem parseDepth3_nodup {st : PState} {line : String} {st2 : PState}
    (h : parseDepth3 st line = .ok st2) (hn : treeNodupB st.cmds = true) :
    treeNodupB st2.cmds = true := by
  cases hp : st.prev with
  | none =>
    simp only [parseDepth3, hp] at h
    exact absurd h (by simp)
  | some p =>
    cases hl : lookupOD p st.cmds with
    | none =>
      simp only [parseDepth3, hp, hl] at h
      exact absurd h (by simp)
    | some v =>
      cases v with
      | term =>
        simp only [parseDepth3, hp, hl] at h
        exact absurd h (by simp)
      | node com sub =>
        cases hsp : st.subPrev with
        | none =>
          simp only [parseDepth3, hp, hl, hsp] at h
          exact absurd h (by simp)
        | some s =>
          cases hl2 : lookupOD s sub with
          | none =>
            simp only [parseDepth3, hp, hl, hsp, hl2] at h
            exact absurd h (by simp)
          | some w =>
            cases w with
            | term =>
              simp only [parseDepth3, hp, hl, hsp, hl2] at h
              exact absurd h (by simp)
            | node com2 leaves =>
              simp only [parseDepth3, hp, hl, hsp, hl2, Except.ok.injEq] at h
              subst h
              simp only [treeNodupB, Bool.and_eq_true] at hn ⊢
              have hsub : nodup2 (p, Val.node com sub) = true :=
                all_of_mem hn.2 (mem_of_lookupOD hl)
              simp only [nodup2, Bool.and_eq_true] at hsub
              have hleaf : nodup3 (s, Val.node com2 leaves) = true :=
                all_of_mem hsub.2 (mem_of_lookupOD hl2)
              simp only [nodup3] at hleaf
              refine ⟨nodupB_keys_insertOD _ hn.1, all_insertOD hn.2 ?_⟩
              simp only [nodup2, Bool.and_eq_true]
              refine ⟨nodupB_keys_insertOD _ hsub.1, all_insertOD hsub.2 ?_⟩
              simp only [nodup3]
              exact nodupB_keys_insertOD _ hleaf

theorem parseLine_nodup {st : PState} {l : String} {st2 : PState}
    (h : parseLine st l = .ok st2) (hn : treeNodupB st.cmds = true) :
    treeNodupB st2.cmds = true := by
  cases h1 : ((pyStrip (stripNL l) == "") || pyStartswith (stripNL l) "!") with
  | true =>
    rw [parseLine_skip h1] at h
    cases h
    exact hn
  | false =>
    cases h2 : pyStartswith (stripNL l) "      " with
    | true =>
      rw [parseLine_d3 h1 h2] at h
      exact parseDepth3_nodup h hn
    | false =>
      cases h3 : pyStartswith (stripNL l) "   " with
      | true =>
        rw [parseLine_d2 h1 h2 h3] at h
        exact parseDepth2_nodup h hn
      | false =>
        rw [parseLine_d1 h1 h2 h3] at h
        exact parseDepth1_nodup h hn

theorem parseLinesSt_nodup {lines : List String} :
    ∀ {st st2 : PState}, parseLinesSt lines st = .ok st2 →
    treeNodupB st.cmds = true → treeNodupB st2.cmds = true := by
  induction lines with
  | nil =>
    intro st st2 h hn
    cases h
    exact hn
  | cons l rest ih =>
    intro st st2 h hn
    unfold parseLinesSt at h
    cases hl : parseLine st l with
    | ok st1 =>
      rw [hl] at h
      exact ih h (parseLine_nodup hl hn)
    | error e => rw [hl] at h; exact absurd h (by simp)

theorem parseDepth1_wf3 {st : PState} {line : String} {st2 : PState}
    (h : parseDepth1 st line = .ok st2) (hw : wf3 st.cmds = true) :
    wf3 st2.cmds = true := by
  cases h
  exact all_insertOD hw (by simp [wf3Root])

theorem parseDepth2_wf3 {st : PState} {line : String} {st2 : PState}
    (h : parseDepth2 st line = .ok st2) (hw : wf3 st.cmds = true) :
    wf3 st2.cmds = true := by
  cases hp : st.prev with
  | none =>
    simp only [parseDepth2, hp] at h
    exact absurd h (by simp)
  | some p =>
    cases hl : lookupOD p st.cmds with
    | none =>
      simp only [parseDepth2, hp, hl] at h
      exact absurd h (by simp)
    | some v =>
      cases v with
      | term =>
        simp only [parseDepth2, hp, hl] at h
        exact absurd h (by simp)
      | node com sub =>
        simp only [parseDepth2, hp, hl, Except.ok.injEq] at h
        subst h
        have hsub : wf3Root (p, Val.node com sub) = true :=
          all_of_mem hw (mem_of_lookupOD hl)
        simp only [wf3Root] at hsub
        refine all_insertOD hw ?_
        simp only [wf3Root]
        exact all_insertOD hsub (by simp [wf3Sub])

theorem parseDepth3_wf3 {st : PState} {line : String} {st2 : PState}
    (h : parseDepth3 st line = .ok st2) (hw : wf3 st.cmds = true) :
    wf3 st2.cmds = true := by
  cases hp : st.prev with
  | none =>
    simp only [parseDepth3, hp] at h
    exact absurd h (by simp)
  | some p =>
    cases hl : lookupOD p st.cmds with
    | none =>
      simp only [parseDepth3, hp, hl] at h
      exact absurd h (by simp)
    | some v =>
      cases v with
      | term =>
        simp only [parseDepth3, hp, hl] at h
        exact absurd h (by simp)
      | node com sub =>
        cases hsp : st.subPrev with
        | none =>
          simp only [parseDepth3, hp, hl, hsp] at h
          exact absurd h (by simp)
        | some s =>
          cases hl2 : lookupOD s sub with
          | none =>
            simp only [parseDepth3, hp, hl, hsp, hl2] at h
            exact absurd h (by simp)
          | some w =>
            cases w with
            | term =>
              simp only [parseDepth3, hp, hl, hsp, hl2] at h
              exact absurd h (by simp)
            | node com2 leaves =>
              simp only [parseDepth3, hp, hl, hsp, hl2, Except.ok.injEq] at h
              subst h
              have hsub : wf3Root (p, Val.node com sub) = true :=
                all_of_mem hw (mem_of_lookupOD hl)
              simp only [wf3Root] at hsub
              have hleaf : wf3Sub (s, Val.node com2 leaves) = true :=
                all_of_mem hsub (mem_of_lookupOD hl2)
              simp only [wf3Sub] at hleaf
              refine all_insertOD hw ?_
              simp only [wf3Root]
              refine all_insertOD hsub ?_
              simp only [wf3Sub]
              exact all_insertOD hleaf (by simp [matchTerm])

theorem parseLine_wf3 {st : PState} {l : String} {st2 : PState}
    (h : parseLine st l = .ok st2) (hw : wf3 st.cmds = true) :
    wf3 st2.cmds = true := by
  cases h1 : ((pyStrip (stripNL l) == "") || pyStartswith (stripNL l) "!") with
  | true =>
    rw [parseLine_skip h1] at h
    cases h
    exact hw
  | false =>
    cases h2 : pyStartswith (stripNL l) "      " with
    | true =>
      rw [parseLine_d3 h1 h2] at h
      exact parseDepth3_wf3 h hw
    | false =>
      cases h3 : pyStartswith (stripNL l) "   " with
      | true =>
        rw [parseLine_d2 h1 h2 h3] at h
        exact parseDepth2_wf3 h hw
      | false =>
        rw [parseLine_d1 h1 h2 h3] at h
        exact parseDepth1_wf3 h hw

theorem parseLinesSt_wf3 {lines : List String} :
    ∀ {st st2 : PState}, parseLinesSt lines st = .ok st2 →
    wf3 st.cmds = true → wf3 st2.cmds = true := by
  induction lines with
  | nil =>
    intro st st2 h hw
    cases h
    exact hw
  | cons l rest ih =>
    intro st st2 h hw
    unfold parseLinesSt at h
    cases hl : parseLine st l with
    | ok st1 =>
      rw [hl] at h
      exact ih h (parseLine_wf3 hl hw)
    | error e => rw [hl] at h; exact absurd h (by simp)

theorem parse_config_ok_state {lines : List String} {t : ConfTree}
    (h : parse_config lines = .ok t) :
    ∃ st2 : PState, parseLinesSt lines ⟨[], none, none⟩ = .ok st2 ∧ st2.cmds = t := by
  unfold parse_config at h
  cases hs : parseLinesSt lines ⟨[], none, none⟩ with
  | ok st2 =>
    rw [hs] at h
    simp only [Except.ok.injEq] at h
    exact ⟨st2, rfl, h⟩
  | error e => rw [hs] at h; exact absurd h (by simp)

/-- Every tree produced by the parser has unique keys at every level. -/
theorem parse_config_nodup {lines : List String} {t : ConfTree}
    (h : parse_config lines = .ok t) : treeNodupB t = true := by
  obtain ⟨st2, hs, hc⟩ := parse_config_ok_state h
  rw [← hc]
  exact parseLinesSt_nodup hs (by simp [treeNodupB, nodupB, keys])

/-- Every tree produced by the parser is bounded at three levels with
terminal depth-3 values. -/
theorem parse_config_wf3 {lines : List String} {t : ConfTree}
    (h : parse_config lines = .ok t) : wf3 t = true := by
  obtain ⟨st2, hs, hc⟩ := parse_config_ok_state h
  rw [← hc]
  exact parseLinesSt_wf3 hs (by simp [wf3])

theorem ignoredLine_eq (l : String) :
    ignoredLine l = ((pyStrip (stripNL l) == "") || pyStartswith (stripNL l) "!") := rfl

theorem startswith_six_three {s : String} (h : pyStartswith s "      " = true) :
    pyStartswith s "   " = true := by
  unfold pyStartswith at h ⊢
  have h6 : "      ".data = [' ', ' ', ' ', ' ', ' ', ' '] := rfl
  have h3 : "   ".data = [' ', ' ', ' '] := rfl
  rw [h6] at h
  rw [h3]
  cases hd : s.data with
  | nil => rw [hd] at h; exact absurd h (by decide)
  | cons a t1 =>
    rw [hd] at h
    cases t1 with
    | nil => exact absurd h (by simp [List.isPrefixOf])
    | cons b t2 =>
      cases t2 with
      | nil => exact absurd h (by simp [List.isPrefixOf])
      | cons c t3 =>
        simp only [List.isPrefixOf, Bool.and_eq_true] at h ⊢
        exact ⟨h.1, h.2.1, h.2.2.1, by simp [List.isPrefixOf]⟩

theorem startswith_three_not_bang {s : String} (h : pyStartswith s "   " = true) :
    pyStartswith s "!" = false := by
  unfold pyStartswith at h ⊢
  have h3 : "   ".data = [' ', ' ', ' '] := rfl
  have hb : "!".data = ['!'] := rfl
  rw [h3] at h
  rw [hb]
  cases hd : s.data with
  | nil => rw [hd] at h; exact absurd h (by decide)
  | cons a t1 =>
    rw [hd] at h
    simp only [List.isPrefixOf, Bool.and_eq_true, beq_iff_eq] at h
    simp [List.isPrefixOf, ← h.1]

theorem parseLinesSt_cons (l : String) (rest : List String) (st : PState) :
    parseLinesSt (l :: rest) st =
      match parseLine st l with
      | .ok st1 => parseLinesSt rest st1
      | .error e => .error e := rfl

theorem parseLinesSt_skip_lead {pre : List String} {rest : List String} {st : PState}
    (h : pre.all ignoredLine = true) :
    parseLinesSt (pre ++ rest) st = parseLinesSt rest st := by
  induction pre with
  | nil => rfl
  | cons l pre2 ih =>
    simp only [List.all_cons, Bool.and_eq_true] at h
    rw [List.cons_append, parseLinesSt_cons, parseLine_skip h.1]
    exact ih h.2

/-- C2 counterexample input: a comment line preceded by three spaces is
NOT ignored; it is parsed as a depth-2 node (and becomes the current
depth-2 context). -/
theorem c2_counterexample :
    parse_config ["router bgp 65000", "   ! comment"] =
      .ok [("router bgp 65000", Val.node [] [("! comment", Val.node [] [])])] := by rfl

/-- C2 (amended): a line that is empty after trimming, or whose FIRST
character (column 0, no leading spaces) is the comment marker, is
ignored: the parser state is unchanged, so no node is created, the
depth-1/depth-2 cursors are untouched, and the parse of the remaining
lines is unaffected. -/
theorem c2_blank_and_comment_skip (st : PState) (l : String) (rest : List String)
    (h : ignoredLine l = true) :
    parseLine st l = .ok st ∧ parseLinesSt (l :: rest) st = parseLinesSt rest st := by
  have hs : parseLine st l = .ok st := parseLine_skip ((ignoredLine_eq l) ▸ h)
  refine ⟨hs, ?_⟩
  rw [parseLinesSt_cons, hs]

theorem c2_blank_and_comment_skip_witness :
    parseLine ⟨[], none, none⟩ "!" = .ok ⟨[], none, none⟩ ∧
    parseLinesSt ["!", "hostname x"] ⟨[], none, none⟩ =
      parseLinesSt ["hostname x"] ⟨[], none, none⟩ := by
  have h := c2_blank_and_comment_skip ⟨[], none, none⟩ "!" ["hostname x"] (by rfl)
  exact h

/-- C3: if the first line that is neither blank nor a column-0 comment
starts with at least three spaces (a depth-2 or depth-3 line before any
depth-1 line), the parse fails with `MalformedConfigError` carrying that
line; no tree is produced. -/
theorem c3_indented_before_root (pre : List String) (l : String) (post : List String)
    (hpre : pre.all ignoredLine = true)
    (hind : pyStartswith (stripNL l) "   " = true)
    (hnb : (pyStrip (stripNL l) == "") = false) :
    parse_config (pre ++ l :: post) = .error ⟨stripNL l⟩ := by
  have hig : ((pyStrip (stripNL l) == "") || pyStartswith (stripNL l) "!") = false := by
    rw [hnb, startswith_three_not_bang hind]
    rfl
  unfold parse_config
  rw [parseLinesSt_skip_lead hpre]
  cases h6 : pyStartswith (stripNL l) "      " with
  | true =>
    rw [parseLinesSt_cons, parseLine_d3 hig h6]
    simp [parseDepth3]
  | false =>
    rw [parseLinesSt_cons, parseLine_d2 hig h6 hind]
    simp [parseDepth2]

theorem c3_indented_before_root_witness :
    parse_config ["!", "", "   sub-command"] = .error ⟨"   sub-command"⟩ := by
  have h := c3_indented_before_root ["!", ""] "   sub-command" [] (by rfl) (by rfl) (by rfl)
  simpa using h

/-- C9: every tree produced by the parser is bounded at three levels:
root and depth-2 values are nodes, every depth-3 value is the terminal
marker `None`, so nothing can hang below depth 3. -/
theorem c9_depth_bounded (lines : List String) (t : ConfTree)
    (h : parse_config lines = .ok t) : wf3 t = true :=
  parse_config_wf3 h

theorem c9_depth_bounded_witness :
    wf3 [("router bgp 65000", Val.node []
      [("vrf test", Val.node [] [("neighbor 1.1.1.1 remote-as 1", Val.term)])])] = true :=
  c9_depth_bounded ["router bgp 65000", "   vrf test", "      neighbor 1.1.1.1 remote-as 1"]
    _ (by rfl)

/-- C10: parse can fail even when every indented line comes after some
depth-1 line.  Here the depth-3 line follows the new root
`interface Eth1`, but the depth-2 cursor still holds `vrf test` from the
earlier root, and the lookup of that stale key under the new root fails.
The same input without the depth-3 line parses fine, and the first line
is a depth-1 line, so the before-any-depth-1 condition of C3 is not the
failure here. -/
theorem c10_stale_depth2_cursor :
    parse_config ["router bgp 1", "   vrf test", "interface Eth1", "      neighbor 1.1.1.1"] =
      .error ⟨"      neighbor 1.1.1.1"⟩ ∧
    parse_config ["router bgp 1", "   vrf test", "interface Eth1"] =
      .ok [("router bgp 1", Val.node [] [("vrf test", Val.node [] [])]),
        ("interface Eth1", Val.node [] [])] ∧
    pyStartswith (stripNL "router bgp 1") "   " = false := by
  exact ⟨by rfl, by rfl, by rfl⟩

/-- C8: within one parent, re-encountered command text overwrites.
(1) Parse output never holds duplicate sibling keys at any level.
(2) Updating an existing key keeps the key set (no duplicate sibling is
added) and the subsequent lookup returns the new value.
(3) A re-parsed depth-1 line stores a fresh empty node under the line
text (children accumulated under an earlier occurrence are discarded).
(4) A re-parsed depth-2 line stores a fresh empty node under the
stripped text inside the current root (again discarding children). -/
theorem c8_overwrite_on_duplicate :
    (∀ (lines : List String) (t : ConfTree), parse_config lines = .ok t →
      treeNodupB t = true)
    ∧ (∀ (k : String) (v : Val) (l : List (String × Val)),
        lookupOD k (insertOD k v l) = some v ∧
        keys (insertOD k v l) = (if k ∈ keys l then keys l else keys l ++ [k]))
    ∧ (∀ (st : PState) (l : String),
        ignoredLine l = false → pyStartswith (stripNL l) "   " = false →
        parseLine st l =
          .ok ⟨insertOD (stripNL l) (Val.node [] []) st.cmds, some (stripNL l), st.subPrev⟩)
    ∧ (∀ (st : PState) (l p : String) (com : List String) (sub : List (String × Val)),
        ignoredLine l = false → pyStartswith (stripNL l) "      " = false →
        pyStartswith (stripNL l) "   " = true →
        st.prev = some p → lookupOD p st.cmds = some (Val.node com sub) →
        parseLine st l =
          .ok ⟨insertOD p (Val.node com (insertOD (pyStrip (stripNL l)) (Val.node [] []) sub)) st.cmds,
            st.prev, some (pyStrip (stripNL l))⟩) := by
  refine ⟨fun lines t h => parse_config_nodup h,
    fun k v l => ⟨lookupOD_insertOD_self k v l, keys_insertOD k v l⟩, ?_, ?_⟩
  · intro st l hig h3
    have h6 : pyStartswith (stripNL l) "      " = false := by
      cases h6 : pyStartswith (stripNL l) "      " with
      | true => rw [startswith_six_three h6] at h3; exact absurd h3 (by simp)
      | false => rfl
    rw [parseLine_d1 ((ignoredLine_eq l) ▸ hig) h6 h3]
    rfl
  · intro st l p com sub hig h6 h3 hp hl
    rw [parseLine_d2 ((ignoredLine_eq l) ▸ hig) h6 h3]
    simp [parseDepth2, hp, hl]

theorem c8_overwrite_on_duplicate_witness :
    treeNodupB [("a", Val.node [] [])] = true ∧
    (lookupOD "a" (insertOD "a" Val.term [("a", Val.node [] [("b", Val.term)])]) = some Val.term ∧
      keys (insertOD "a" Val.term [("a", Val.node [] [("b", Val.term)])]) =
        (if "a" ∈ keys [("a", Val.node [] [("b", Val.term)])]
          then keys [("a", Val.node [] [("b", Val.term)])]
          else keys [("a", Val.node [] [("b", Val.term)])] ++ ["a"])) ∧
    parseLine ⟨[("a", Val.node [] [("b", Val.node [] [])])], some "a", some "b"⟩ "a" =
      .ok ⟨insertOD "a" (Val.node [] []) [("a", Val.node [] [("b", Val.node [] [])])],
        some "a", some "b"⟩ ∧
    parseLine ⟨[("a", Val.node [] [("b", Val.node [] [("c", Val.term)])])], some "a", some "b"⟩
        "   b" =
      .ok ⟨insertOD "a" (Val.node []
            (insertOD "b" (Val.node [] []) [("b", Val.node [] [("c", Val.term)])]))
            [("a", Val.node [] [("b", Val.node [] [("c", Val.term)])])],
        some "a", some "b"⟩ := by
  refine ⟨c8_overwrite_on_duplicate.1 ["a", "   b", "a"] _ (by rfl),
    c8_overwrite_on_duplicate.2.1 "a" Val.term [("a", Val.node [] [("b", Val.term)])],
    c8_overwrite_on_duplicate.2.2.1 _ "a" (by rfl) (by rfl),
    ?_⟩
  have h := c8_overwrite_on_duplicate.2.2.2
    ⟨[("a", Val.node [] [("b", Val.node [] [("c", Val.term)])])], some "a", some "b"⟩
    "   b" "a" [] [("b", Val.node [] [("c", Val.term)])] (by rfl) (by rfl) (by rfl) rfl (by rfl)
  simpa using h

theorem linesJoin_append (a b : List String) :
    linesJoin (a ++ b) = linesJoin a ++ linesJoin b := by
  induction a with
  | nil => simp [linesJoin]
  | cons l rest ih =>
    simp only [List.cons_append, linesJoin, List.append_eq, ih]
    simp [String.append_assoc]

theorem serLeaves_eq (leaves : List (String × Val)) :
    serLeaves leaves = linesJoin (leafLines leaves) := by
  induction leaves with
  | nil => rfl
  | cons kv rest ih =>
    simp only [serLeaves, leafLines, List.map_cons, linesJoin, ih, leafLines]

theorem serSubs_eq {sub : List (String × Val)} (h : sub.all serialWFSub = true) :
    serSubs sub = some (linesJoin (subLines sub)) := by
  induction sub with
  | nil => rfl
  | cons kv rest ih =>
    simp only [List.all_cons, Bool.and_eq_true] at h
    obtain ⟨k, v⟩ := kv
    cases v with
    | term => simp [serialWFSub] at h
    | node com2 leaves =>
      simp only [serSubs, getCmds, ih h.2, subLines, List.flatMap_cons, linesJoin,
        valCmds, List.append_eq, linesJoin_append, serLeaves_eq]
      simp only [String.append_assoc]
      rfl

theorem to_string_eq {t : ConfTree} (h : t.all serialWFRoot = true) :
    to_string t = some (linesJoin (treeLines t)) := by
  induction t with
  | nil => rfl
  | cons kv rest ih =>
    simp only [List.all_cons, Bool.and_eq_true] at h
    obtain ⟨k, v⟩ := kv
    cases v with
    | term => simp [serialWFRoot] at h
    | node com sub =>
      have hsub : sub.all serialWFSub = true := by
        have h1 := h.1
        simp only [serialWFRoot, Bool.and_eq_true] at h1
        tauto
      simp only [to_string, getCmds, serSubs_eq hsub, ih h.2, treeLines, List.flatMap_cons,
        linesJoin, valCmds, List.append_eq, linesJoin_append]
      simp only [String.append_assoc]
      rfl

theorem stringMk_data (s : String) : String.mk s.data = s := by
  cases s
  rfl

theorem splitlinesGo_line {l : List Char} (hnl : ∀ c ∈ l, c ≠ '\n' ∧ c ≠ '\r') :
    ∀ (acc rest : List Char),
      splitlinesGo (l ++ '\n' :: rest) acc = (acc.reverse ++ l) :: splitlinesGo rest [] := by
  induction l with
  | nil =>
    intro acc rest
    cases rest with
    | nil => simp [splitlinesGo]
    | cons r rs => simp [splitlinesGo]
  | cons c t ih =>
    intro acc rest
    have hc := hnl c (by simp)
    cases ht : t ++ '\n' :: rest with
    | nil => simp at ht
    | cons d rest2 =>
      have hgoal : splitlinesGo (c :: d :: rest2) acc =
          splitlinesGo (d :: rest2) (c :: acc) := by
        simp only [splitlinesGo, if_neg hc.1, if_neg hc.2]
      rw [List.cons_append, ht, hgoal, ← ht,
        ih (fun x hx => hnl x (by simp [hx])) (c :: acc) rest]
      simp

theorem pySplitlines_linesJoin {ls : List String}
    (h : ∀ l ∈ ls, ¬ '\n' ∈ l.data ∧ ¬ '\r' ∈ l.data) :
    pySplitlines (linesJoin ls) = ls := by
  induction ls with
  | nil => rfl
  | cons l rest ih =>
    have hd : (linesJoin (l :: rest)).data = l.data ++ '\n' :: (linesJoin rest).data := by
      show (l ++ "\n" ++ linesJoin rest).data = _
      rw [String.append_assoc]
      rfl
    unfold pySplitlines
    rw [hd, splitlinesGo_line
      (fun c hc => ⟨fun heq => (h l (by simp)).1 (heq ▸ hc),
        fun heq => (h l (by simp)).2 (heq ▸ hc)⟩) [] _]
    simp only [List.reverse_nil, List.nil_append, List.map_cons, stringMk_data]
    have ih2 := ih (fun x hx => h x (by simp [hx]))
    unfold pySplitlines at ih2
    rw [ih2]

theorem isPySpace_space : isPySpace ' ' = true := rfl

theorem ne_space_of_not_isPySpace {c : Char} (h : isPySpace c = false) : (' ' == c) = false := by
  cases hc : (' ' == c) with
  | false => rfl
  | true =>
    have : c = ' ' := (beq_iff_eq.mp hc).symm
    rw [this] at h
    exact absurd h (by decide)

theorem dropWhile_three_spaces (rest : List Char) :
    List.dropWhile isPySpace ([' ', ' ', ' '] ++ rest) = List.dropWhile isPySpace rest := by
  simp [List.dropWhile_cons, isPySpace_space]

theorem dropWhile_six_spaces (rest : List Char) :
    List.dropWhile isPySpace ([' ', ' ', ' ', ' ', ' ', ' '] ++ rest) =
      List.dropWhile isPySpace rest := by
  simp [List.dropWhile_cons, isPySpace_space]

theorem pyStripData_eq_self {l : List Char} (h : strippedNonempty l = true) :
    pyStripData l = l := by
  cases l with
  | nil => simp [strippedNonempty] at h
  | cons c t =>
    cases hr : (c :: t).reverse with
    | nil => exact absurd (List.reverse_eq_nil_iff.mp hr) (by simp)
    | cons d t2 =>
      simp only [strippedNonempty, hr, Bool.and_eq_true, Bool.not_eq_true'] at h
      unfold pyStripData
      rw [List.dropWhile_cons]
      simp only [h.1, Bool.false_eq_true, if_false]
      rw [hr, List.dropWhile_cons]
      simp only [h.2, Bool.false_eq_true, if_false]
      rw [← hr]
      exact List.reverse_reverse _

theorem pyStrip_eq_self {k : String} (h : strippedNonempty k.data = true) :
    pyStrip k = k := by
  unfold pyStrip
  rw [pyStripData_eq_self h]

theorem pyStrip_indent3 {k : String} (h : strippedNonempty k.data = true) :
    pyStrip ("   " ++ k) = k := by
  have hd : ("   " ++ k).data = [' ', ' ', ' '] ++ k.data := rfl
  unfold pyStrip pyStripData
  rw [hd, dropWhile_three_spaces]
  have := pyStrip_eq_self h
  unfold pyStrip pyStripData at this
  exact this

theorem pyStrip_indent6 {k : String} (h : strippedNonempty k.data = true) :
    pyStrip ("      " ++ k) = k := by
  have hd : ("      " ++ k).data = [' ', ' ', ' ', ' ', ' ', ' '] ++ k.data := rfl
  unfold pyStrip pyStripData
  rw [hd, dropWhile_six_spaces]
  have := pyStrip_eq_self h
  unfold pyStrip pyStripData at this
  exact this

theorem nonempty_of_strippedNonempty {k : String} (h : strippedNonempty k.data = true) :
    (k == "") = false := by
  cases hd : k.data with
  | nil =>
    rw [hd] at h
    simp [strippedNonempty] at h
  | cons c t =>
    cases hb : (k == "") with
    | false => rfl
    | true =>
      have : k = "" := beq_iff_eq.mp hb
      rw [this] at hd
      exact absurd hd (by simp)

theorem isPrefixOf_append_self (a b : List Char) : a.isPrefixOf (a ++ b) = true := by
  rw [ List.isPrefixOf_iff_prefix]
  exact List.prefix_append a b

theorem strippedNonempty_head {l : List Char} (h : strippedNonempty l = true) :
    ∃ c t, l = c :: t ∧ isPySpace c = false := by
  cases l with
  | nil => simp [strippedNonempty] at h
  | cons c t =>
    refine ⟨c, t, rfl, ?_⟩
    cases hr : (c :: t).reverse with
    | nil => exact absurd (List.reverse_eq_nil_iff.mp hr) (by simp)
    | cons d t2 =>
      simp only [strippedNonempty, hr, Bool.and_eq_true, Bool.not_eq_true'] at h
      exact h.1

theorem dropWhile_eq_self_of_none {p : Char → Bool} {l : List Char}
    (h : ∀ c ∈ l, p c = false) : l.dropWhile p = l := by
  cases l with
  | nil => rfl
  | cons c t =>
    rw [List.dropWhile_cons]
    simp [h c (by simp)]

theorem stripNL_eq_self {s : String} (h : ¬ '\n' ∈ s.data) : stripNL s = s := by
  unfold stripNL
  have h1 : ∀ c ∈ s.data, (c = '\n' : Bool) = false := by
    intro c hc
    simp only [decide_eq_false_iff_not]
    intro heq
    exact h (heq ▸ hc)
  rw [dropWhile_eq_self_of_none h1,
    dropWhile_eq_self_of_none (fun c hc => h1 c (List.mem_reverse.mp hc)),
    List.reverse_reverse]

theorem not_mem_of_contains_false {c : Char} {l : List Char}
    (h : l.contains c = false) : ¬ c ∈ l := by
  intro hm
  have hc : l.contains c = true := List.elem_iff.mpr hm
  rw [hc] at h
  exact absurd h (by simp)

theorem not_nl_indent3 {k : String} (h : ¬ '\n' ∈ k.data) : ¬ '\n' ∈ ("   " ++ k).data := by
  have hd : ("   " ++ k).data = [' ', ' ', ' '] ++ k.data := rfl
  rw [hd]
  intro hm
  rcases List.mem_append.mp hm with h1 | h2
  · exact absurd h1 (by decide)
  · exact h h2

theorem not_nl_indent6 {k : String} (h : ¬ '\n' ∈ k.data) : ¬ '\n' ∈ ("      " ++ k).data := by
  have hd : ("      " ++ k).data = [' ', ' ', ' ', ' ', ' ', ' '] ++ k.data := rfl
  rw [hd]
  intro hm
  rcases List.mem_append.mp hm with h1 | h2
  · exact absurd h1 (by decide)
  · exact h h2

theorem not_cr_indent3 {k : String} (h : ¬ '\r' ∈ k.data) : ¬ '\r' ∈ ("   " ++ k).data := by
  have hd : ("   " ++ k).data = [' ', ' ', ' '] ++ k.data := rfl
  rw [hd]
  intro hm
  rcases List.mem_append.mp hm with h1 | h2
  · exact absurd h1 (by decide)
  · exact h h2

theorem not_cr_indent6 {k : String} (h : ¬ '\r' ∈ k.data) : ¬ '\r' ∈ ("      " ++ k).data := by
  have hd : ("      " ++ k).data = [' ', ' ', ' ', ' ', ' ', ' '] ++ k.data := rfl
  rw [hd]
  intro hm
  rcases List.mem_append.mp hm with h1 | h2
  · exact absurd h1 (by decide)
  · exact h h2

theorem startswith_indent3 (k : String) : pyStartswith ("   " ++ k) "   " = true := by
  unfold pyStartswith
  have hd : ("   " ++ k).data = "   ".data ++ k.data := rfl
  rw [hd]
  exact isPrefixOf_append_self _ _

theorem startswith_indent6 (k : String) : pyStartswith ("      " ++ k) "      " = true := by
  unfold pyStartswith
  have hd : ("      " ++ k).data = "      ".data ++ k.data := rfl
  rw [hd]
  exact isPrefixOf_append_self _ _

theorem not_startswith6_indent3 {k : String} (h : strippedNonempty k.data = true) :
    pyStartswith ("   " ++ k) "      " = false := by
  obtain ⟨c, t, hd, hc⟩ := strippedNonempty_head h
  unfold pyStartswith
  have hd2 : ("   " ++ k).data = [' ', ' ', ' '] ++ k.data := rfl
  rw [hd2, hd]
  have h6 : "      ".data = [' ', ' ', ' ', ' ', ' ', ' '] := rfl
  rw [h6]
  simp [List.isPrefixOf, ne_space_of_not_isPySpace hc]

theorem matchTerm_eq {v : Val} (h : matchTerm v = true) : v = Val.term := by
  cases v with
  | term => rfl
  | node com c => simp [matchTerm] at h

theorem rootLine_facts {k : String} (h : goodRootKey k = true) :
    stripNL k = k ∧ ((pyStrip k == "") || pyStartswith k "!") = false ∧
    pyStartswith k "      " = false ∧ pyStartswith k "   " = false := by
  simp only [goodRootKey, Bool.and_eq_true, Bool.not_eq_true'] at h
  obtain ⟨⟨⟨⟨h1, h2⟩, h3⟩, h4⟩, h5⟩ := h
  have hnl : ¬ '\n' ∈ k.data := not_mem_of_contains_false h4
  refine ⟨stripNL_eq_self hnl, ?_, ?_, h3⟩
  · rw [h1, h2]
    rfl
  · cases h6 : pyStartswith k "      " with
    | false => rfl
    | true =>
      rw [startswith_six_three h6] at h3
      exact absurd h3 (by simp)

theorem subLine_facts {k : String} (h : goodSubKey k = true) :
    stripNL ("   " ++ k) = "   " ++ k ∧
    ((pyStrip ("   " ++ k) == "") || pyStartswith ("   " ++ k) "!") = false ∧
    pyStartswith ("   " ++ k) "      " = false ∧
    pyStartswith ("   " ++ k) "   " = true ∧
    pyStrip ("   " ++ k) = k := by
  simp only [goodSubKey, Bool.and_eq_true, Bool.not_eq_true'] at h
  have hnl : ¬ '\n' ∈ k.data := not_mem_of_contains_false h.1.2
  refine ⟨stripNL_eq_self (not_nl_indent3 hnl), ?_, not_startswith6_indent3 h.1.1,
    startswith_indent3 k, pyStrip_indent3 h.1.1⟩
  rw [pyStrip_indent3 h.1.1, nonempty_of_strippedNonempty h.1.1,
    startswith_three_not_bang (startswith_indent3 k)]
  rfl

theorem leafLine_facts {k : String} (h : goodSubKey k = true) :
    stripNL ("      " ++ k) = "      " ++ k ∧
    ((pyStrip ("      " ++ k) == "") || pyStartswith ("      " ++ k) "!") = false ∧
    pyStartswith ("      " ++ k) "      " = true ∧
    pyStrip ("      " ++ k) = k := by
  simp only [goodSubKey, Bool.and_eq_true, Bool.not_eq_true'] at h
  have hnl : ¬ '\n' ∈ k.data := not_mem_of_contains_false h.1.2
  refine ⟨stripNL_eq_self (not_nl_indent6 hnl), ?_, startswith_indent6 k,
    pyStrip_indent6 h.1.1⟩
  rw [pyStrip_indent6 h.1.1, nonempty_of_strippedNonempty h.1.1,
    startswith_three_not_bang (startswith_six_three (startswith_indent6 k))]
  rfl

theorem parseLinesSt_append (xs ys : List String) (st : PState) :
    parseLinesSt (xs ++ ys) st =
      match parseLinesSt xs st with
      | .ok st1 => parseLinesSt ys st1
      | .error e => .error e := by
  induction xs generalizing st with
  | nil => rfl
  | cons l rest ih =>
    rw [List.cons_append, parseLinesSt_cons, parseLinesSt_cons]
    cases parseLine st l with
    | ok st1 => exact ih st1
    | error e => rfl

theorem keys_append (a b : List (String × Val)) : keys (a ++ b) = keys a ++ keys b := by
  simp [keys]

theorem keys_cons (kv : String × Val) (l : List (String × Val)) :
    keys (kv :: l) = kv.1 :: keys l := rfl

theorem nodupB_cons_spec {k : String} {rest : List String}
    (h : nodupB (k :: rest) = true) :
    rest.contains k = false ∧ nodupB rest = true := by
  simp only [nodupB, Bool.and_eq_true, Bool.not_eq_true'] at h
  exact h

theorem leafLines_cons (kv : String × Val) (rest : List (String × Val)) :
    leafLines (kv :: rest) = ("      " ++ kv.1) :: leafLines rest := rfl

theorem parse_leafBlock (leaves : List (String × Val)) :
    ∀ (C : ConfTree) (p s : String) (com com2 : List String)
      (sub acc : List (String × Val)),
    leaves.all serialWFLeaf = true →
    (∀ kv ∈ leaves, ¬ kv.1 ∈ keys acc) →
    nodupB (keys leaves) = true →
    lookupOD p C = some (Val.node com sub) →
    lookupOD s sub = some (Val.node com2 acc) →
    parseLinesSt (leafLines leaves) ⟨C, some p, some s⟩ =
      .ok ⟨insertOD p (Val.node com (insertOD s (Val.node com2 (acc ++ leaves)) sub)) C,
        some p, some s⟩ := by
  induction leaves with
  | nil =>
    intro C p s com com2 sub acc hall hfresh hnd hlp hls
    simp only [leafLines, List.map_nil, List.append_nil]
    rw [insertOD_lookup_id hls, insertOD_lookup_id hlp]
    rfl
  | cons kv rest ih =>
    intro C p s com com2 sub acc hall hfresh hnd hlp hls
    obtain ⟨k, v⟩ := kv
    simp only [List.all_cons, Bool.and_eq_true] at hall
    have hgood : goodSubKey k = true ∧ matchTerm v = true := by
      have h1 := hall.1
      simp only [serialWFLeaf, Bool.and_eq_true] at h1
      exact h1
    have hv := matchTerm_eq hgood.2
    subst hv
    obtain ⟨hstrip, hig, h6, hkey⟩ := leafLine_facts hgood.1
    rw [keys_cons] at hnd
    obtain ⟨hndc, hndr⟩ := nodupB_cons_spec hnd
    have hkm : ¬ k ∈ keys acc := hfresh (k, Val.term) (by simp)
    have hndc2 : (keys rest).contains k = false := hndc
    have hfresh2 : ∀ kv2 ∈ rest, ¬ kv2.1 ∈ keys (acc ++ [(k, Val.term)]) := by
      intro kv2 hm
      rw [keys_append]
      intro hmem
      rcases List.mem_append.mp hmem with h1 | h2
      · exact hfresh kv2 (List.mem_cons_of_mem _ hm) h1
      · have hk2 : kv2.1 = k := by simpa [keys] using h2
        have hkr : k ∈ keys rest := by
          rw [← hk2]
          exact List.mem_map.mpr ⟨kv2, hm, rfl⟩
        have hcon : (keys rest).contains k = true := List.elem_iff.mpr hkr
        rw [hcon] at hndc2
        exact absurd hndc2 (by simp)
    rw [leafLines_cons]
    rw [parseLinesSt_cons, parseLine_d3 (by rw [hstrip]; exact hig) (by rw [hstrip]; exact h6),
      hstrip]
    simp only [parseDepth3, hlp, hls, hkey]
    rw [insertOD_of_not_mem Val.term hkm]
    rw [ih (insertOD p (Val.node com (insertOD s (Val.node com2 (acc ++ [(k, Val.term)])) sub)) C)
      p s com com2 (insertOD s (Val.node com2 (acc ++ [(k, Val.term)])) sub)
      (acc ++ [(k, Val.term)]) hall.2 hfresh2 hndr
      (lookupOD_insertOD_self _ _ _) (lookupOD_insertOD_self _ _ _)]
    rw [insertOD_insertOD_same, insertOD_insertOD_same]
    rw [List.append_assoc, List.singleton_append]

theorem subLines_cons (kv : String × Val) (rest : List (String × Val)) :
    subLines (kv :: rest) =
      ("   " ++ kv.1) :: (leafLines (valCmds kv.2) ++ subLines rest) := by
  simp [subLines]

theorem parseLinesSt_append_ok {xs ys : List String} {st st1 : PState}
    (h : parseLinesSt xs st = .ok st1) :
    parseLinesSt (xs ++ ys) st = parseLinesSt ys st1 := by
  rw [parseLinesSt_append, h]

theorem fresh_append {rest acc : List (String × Val)} {k : String} (v : Val)
    (hfresh : ∀ kv ∈ rest, ¬ kv.1 ∈ keys acc)
    (hndc : (keys rest).contains k = false) :
    ∀ kv ∈ rest, ¬ kv.1 ∈ keys (acc ++ [(k, v)]) := by
  intro kv hm
  rw [keys_append]
  intro hmem
  rcases List.mem_append.mp hmem with h1 | h2
  · exact hfresh kv hm h1
  · have hk2 : kv.1 = k := by simpa [keys] using h2
    have hkr : k ∈ keys rest := by
      rw [← hk2]
      exact List.mem_map.mpr ⟨kv, hm, rfl⟩
    have hcon : (keys rest).contains k = true := List.elem_iff.mpr hkr
    rw [hcon] at hndc
    exact absurd hndc (by simp)

theorem parse_subBlock (subs : List (String × Val)) :
    ∀ (C : ConfTree) (p : String) (com : List String) (acc2 : List (String × Val))
      (sp : Option String),
    subs.all serialWFSub = true →
    (∀ kv ∈ subs, ¬ kv.1 ∈ keys acc2) →
    nodupB (keys subs) = true →
    lookupOD p C = some (Val.node com acc2) →
    ∃ sp2 : Option String,
      parseLinesSt (subLines subs) ⟨C, some p, sp⟩ =
        .ok ⟨insertOD p (Val.node com (acc2 ++ subs)) C, some p, sp2⟩ := by
  induction subs with
  | nil =>
    intro C p com acc2 sp hall hfresh hnd hlp
    refine ⟨sp, ?_⟩
    rw [List.append_nil, insertOD_lookup_id hlp]
    rfl
  | cons kv rest ih =>
    intro C p com acc2 sp hall hfresh hnd hlp
    obtain ⟨k2, v2⟩ := kv
    simp only [List.all_cons, Bool.and_eq_true] at hall
    cases v2 with
    | term => exact absurd hall.1 (by simp [serialWFSub])
    | node com2 leaves =>
      have hs := hall.1
      simp only [serialWFSub, Bool.and_eq_true] at hs
      obtain ⟨⟨⟨hgk, hce⟩, hndl⟩, hla⟩ := hs
      have hcom2 : com2 = [] := by simpa using hce
      subst hcom2
      obtain ⟨hstrip, hig, h6, h3, hkey⟩ := subLine_facts hgk
      rw [keys_cons] at hnd
      have hnd2 := nodupB_cons_spec hnd
      have hndc2 : (keys rest).contains k2 = false := hnd2.1
      have hkm : ¬ k2 ∈ keys acc2 := hfresh (k2, Val.node [] leaves) (by simp)
      have hfresh2 : ∀ kv2 ∈ rest, ¬ kv2.1 ∈ keys (acc2 ++ [(k2, Val.node [] leaves)]) :=
        fresh_append (Val.node [] leaves)
          (fun kv2 hm => hfresh kv2 (List.mem_cons_of_mem _ hm)) hndc2
      obtain ⟨sp2, hih⟩ := ih
        (insertOD p (Val.node com (acc2 ++ [(k2, Val.node [] leaves)])) C)
        p com (acc2 ++ [(k2, Val.node [] leaves)]) (some k2)
        hall.2 hfresh2 hnd2.2 (lookupOD_insertOD_self _ _ _)
      refine ⟨sp2, ?_⟩
      rw [subLines_cons, parseLinesSt_cons,
        parseLine_d2 (by rw [hstrip]; exact hig) (by rw [hstrip]; exact h6)
          (by rw [hstrip]; exact h3), hstrip]
      simp only [parseDepth2, hlp, hkey]
      rw [insertOD_of_not_mem (Val.node [] []) hkm]
      have hlk2 : lookupOD k2 (acc2 ++ [(k2, Val.node [] [])]) = some (Val.node [] []) := by
        rw [lookupOD_append_left hkm]
        simp [lookupOD]
      simp only [valCmds]
      rw [parseLinesSt_append_ok (parse_leafBlock leaves
        (insertOD p (Val.node com (acc2 ++ [(k2, Val.node [] [])])) C)
        p k2 com [] (acc2 ++ [(k2, Val.node [] [])]) []
        hla (by simp [keys]) hndl (lookupOD_insertOD_self _ _ _) hlk2)]
      rw [List.nil_append, insertOD_append_last _ _ hkm, insertOD_insertOD_same, hih,
        List.append_assoc, List.singleton_append, insertOD_insertOD_same]

theorem treeLines_cons (kv : String × Val) (rest : List (String × Val)) :
    treeLines (kv :: rest) = kv.1 :: (subLines (valCmds kv.2) ++ treeLines rest) := by
  simp [treeLines]

theorem parse_rootBlock (ts : List (String × Val)) :
    ∀ (C : ConfTree) (pr sp : Option String),
    ts.all serialWFRoot = true →
    (∀ kv ∈ ts, ¬ kv.1 ∈ keys C) →
    nodupB (keys ts) = true →
    ∃ pr2 sp2, parseLinesSt (treeLines ts) ⟨C, pr, sp⟩ = .ok ⟨C ++ ts, pr2, sp2⟩ := by
  induction ts with
  | nil =>
    intro C pr sp h1 h2 h3
    refine ⟨pr, sp, ?_⟩
    rw [List.append_nil]
    rfl
  | cons kv rest ih =>
    intro C pr sp hall hfresh hnd
    obtain ⟨k, v⟩ := kv
    simp only [List.all_cons, Bool.and_eq_true] at hall
    cases v with
    | term => exact absurd hall.1 (by simp [serialWFRoot])
    | node com sub =>
      have hs := hall.1
      simp only [serialWFRoot, Bool.and_eq_true] at hs
      obtain ⟨⟨⟨hgk, hce⟩, hnds⟩, hsa⟩ := hs
      have hcom : com = [] := by simpa using hce
      subst hcom
      obtain ⟨hstrip, hig, h6, h3⟩ := rootLine_facts hgk
      rw [keys_cons] at hnd
      have hnd2 := nodupB_cons_spec hnd
      have hndc2 : (keys rest).contains k = false := hnd2.1
      have hkm : ¬ k ∈ keys C := hfresh (k, Val.node [] sub) (by simp)
      have hlk : lookupOD k (C ++ [(k, Val.node [] [])]) = some (Val.node [] []) := by
        rw [lookupOD_append_left hkm]
        simp [lookupOD]
      obtain ⟨sp2, hsub⟩ := parse_subBlock sub (C ++ [(k, Val.node [] [])]) k [] [] sp
        hsa (by simp [keys]) hnds hlk
      rw [List.nil_append, insertOD_append_last _ _ hkm] at hsub
      have hfresh2 : ∀ kv2 ∈ rest, ¬ kv2.1 ∈ keys (C ++ [(k, Val.node [] sub)]) :=
        fresh_append _ (fun kv2 hm => hfresh kv2 (List.mem_cons_of_mem _ hm)) hndc2
      obtain ⟨pr2, sp3, hrest⟩ := ih (C ++ [(k, Val.node [] sub)]) (some k) sp2
        hall.2 hfresh2 hnd2.2
      refine ⟨pr2, sp3, ?_⟩
      rw [treeLines_cons, parseLinesSt_cons,
        parseLine_d1 (by rw [hstrip]; exact hig) (by rw [hstrip]; exact h6)
          (by rw [hstrip]; exact h3), hstrip]
      simp only [parseDepth1, valCmds]
      rw [insertOD_of_not_mem (Val.node [] []) hkm]
      rw [parseLinesSt_append_ok hsub, hrest, List.append_assoc, List.singleton_append]

/-- Parsing the serialized line list of a well-formed tree reproduces
the tree exactly. -/
theorem parse_treeLines {t : ConfTree} (h : serialWF t = true) :
    parse_config (treeLines t) = .ok t := by
  simp only [serialWF, Bool.and_eq_true] at h
  obtain ⟨pr2, sp2, hp⟩ := parse_rootBlock t [] none none h.2 (by simp [keys]) h.1
  unfold parse_config
  rw [hp]
  simp

theorem treeLines_no_break {t : ConfTree} (h : t.all serialWFRoot = true) :
    ∀ l ∈ treeLines t, ¬ '\n' ∈ l.data ∧ ¬ '\r' ∈ l.data := by
  intro l hl
  rw [treeLines, List.mem_flatMap] at hl
  obtain ⟨kv, hkv, hm⟩ := hl
  have hr := all_of_mem h hkv
  obtain ⟨k, v⟩ := kv
  cases v with
  | term => exact absurd hr (by simp [serialWFRoot])
  | node com sub =>
    simp only [serialWFRoot, Bool.and_eq_true] at hr
    obtain ⟨⟨⟨hgk, hce⟩, hnds⟩, hsa⟩ := hr
    rcases List.mem_cons.mp hm with hm1 | hm2
    · subst hm1
      simp only [goodRootKey, Bool.and_eq_true, Bool.not_eq_true'] at hgk
      exact ⟨not_mem_of_contains_false hgk.1.2, not_mem_of_contains_false hgk.2⟩
    · simp only [valCmds] at hm2
      rw [subLines, List.mem_flatMap] at hm2
      obtain ⟨kv2, hkv2, hm3⟩ := hm2
      have hs := all_of_mem hsa hkv2
      obtain ⟨k2, v2⟩ := kv2
      cases v2 with
      | term => exact absurd hs (by simp [serialWFSub])
      | node com2 leaves =>
        simp only [serialWFSub, Bool.and_eq_true] at hs
        obtain ⟨⟨⟨hgk2, hce2⟩, hndl⟩, hla⟩ := hs
        simp only [goodSubKey, Bool.and_eq_true, Bool.not_eq_true'] at hgk2
        rcases List.mem_cons.mp hm3 with hl1 | hl2
        · subst hl1
          exact ⟨not_nl_indent3 (not_mem_of_contains_false hgk2.1.2),
            not_cr_indent3 (not_mem_of_contains_false hgk2.2)⟩
        · simp only [valCmds] at hl2
          rw [leafLines, List.mem_map] at hl2
          obtain ⟨kv3, hkv3, hleq⟩ := hl2
          subst hleq
          have h3 := all_of_mem hla hkv3
          simp only [serialWFLeaf, Bool.and_eq_true, goodSubKey, Bool.not_eq_true'] at h3
          exact ⟨not_nl_indent6 (not_mem_of_contains_false h3.1.1.2),
            not_cr_indent6 (not_mem_of_contains_false h3.1.2)⟩

/-- C5: serialize-then-parse round trip.  For a well-formed tree,
`to_string` succeeds, parsing the produced string succeeds, and the
resulting tree agrees with the original on root keys, per-root depth-2
keys and per-depth-2 depth-3 keys (indeed the parsed tree is the
original tree itself). -/
theorem c5_roundtrip (t : ConfTree) (h : serialWF t = true) :
    ∃ (s : String) (t2 : ConfTree),
      to_string t = some s ∧ parseString s = .ok t2 ∧ keyView t2 = keyView t := by
  have h2 : t.all serialWFRoot = true := by
    simp only [serialWF, Bool.and_eq_true] at h
    exact h.2
  refine ⟨linesJoin (treeLines t), t, to_string_eq h2, ?_, rfl⟩
  unfold parseString
  rw [pySplitlines_linesJoin (treeLines_no_break h2)]
  exact parse_treeLines h

theorem c5_roundtrip_witness :
    ∃ (s : String) (t2 : ConfTree),
      to_string [("router bgp 65000", Val.node []
          [("vrf test", Val.node [] [("neighbor 1.1.1.1 remote-as 1", Val.term)])]),
        ("interface Ethernet2", Val.node [] [("description bla", Val.node [] [])])] = some s ∧
      parseString s = .ok t2 ∧
      keyView t2 = keyView [("router bgp 65000", Val.node []
          [("vrf test", Val.node [] [("neighbor 1.1.1.1 remote-as 1", Val.term)])]),
        ("interface Ethernet2", Val.node [] [("description bla", Val.node [] [])])] :=
  c5_roundtrip _ (by rfl)

theorem lookupOD_isSome_of_mem {k : String} {l : List (String × Val)} (h : k ∈ keys l) :
    ∃ v, lookupOD k l = some v := by
  induction l with
  | nil => simp [keys] at h
  | cons kv rest ih =>
    by_cases hk : kv.1 = k
    · exact ⟨kv.2, by simp [lookupOD, hk]⟩
    · have h2 : k ∈ keys rest := by
        simp only [keys, List.map_cons, List.mem_cons] at h
        rcases h with h1 | h2
        · exact absurd h1.symm hk
        · exact h2
      obtain ⟨v, hv⟩ := ih h2
      exact ⟨v, by simp [lookupOD, hk, hv]⟩

theorem wf2_lookup {t : ConfTree} {k : String} (hw : wf2 t = true) (h : k ∈ keys t) :
    ∃ com sub, lookupOD k t = some (Val.node com sub) ∧ sub.all wf2Sub = true := by
  obtain ⟨v, hv⟩ := lookupOD_isSome_of_mem h
  have hroot := all_of_mem hw (mem_of_lookupOD hv)
  cases v with
  | term => simp [wf2Root] at hroot
  | node com sub =>
    simp only [wf2Root] at hroot
    exact ⟨com, sub, hv, hroot⟩

theorem printDiff_dict (action : String) (lst : List String) (d : List (String × Val)) :
    printDiff action lst (PyObj.dict d) = some (specPrintNested action lst) := by
  induction lst with
  | nil => rfl
  | cons cmd rest ih =>
    simp only [printDiff, attrCmds, ih, specPrintNested, String.append_assoc]

theorem printDiff_conf (action : String) (lst : List String) (t : ConfTree)
    (hmem : ∀ c ∈ lst, c ∈ keys t) (hw : wf2 t = true) :
    printDiff action lst (PyObj.conf t) = some (specPrintRoot action lst t) := by
  induction lst with
  | nil => rfl
  | cons cmd rest ih =>
    obtain ⟨com, sub, hl, hsub⟩ := wf2_lookup hw (hmem cmd (by simp))
    simp only [printDiff, attrCmds, hl, getCmds, specPrintRoot, childKeys,
      ih (fun c hc => hmem c (List.mem_cons_of_mem _ hc)), keys, List.map_map,
      String.append_assoc]
    rfl

theorem setDiff_subset {a b : List String} : ∀ c ∈ setDiff a b, c ∈ a :=
  fun _ hc => (List.mem_filter.mp hc).1

theorem setInter_mem {a b : List String} : ∀ c ∈ setInter a b, c ∈ a ∧ c ∈ b := by
  intro c hc
  have h := List.mem_filter.mp hc
  exact ⟨h.1, List.elem_iff.mp h.2⟩

theorem diffKept3_spec (ks : List String) (mine sother : List (String × Val))
    (hmem : ∀ s ∈ ks, s ∈ keys mine ∧ s ∈ keys sother)
    (hwm : mine.all wf2Sub = true) (hwo : sother.all wf2Sub = true) :
    diffKept3 mine sother ks = some (spec3s mine sother ks) := by
  induction ks with
  | nil => rfl
  | cons scmd rest ih =>
    have hm := hmem scmd (by simp)
    obtain ⟨vm, hvm⟩ := lookupOD_isSome_of_mem hm.1
    have hwsm := all_of_mem hwm (mem_of_lookupOD hvm)
    cases vm with
    | term => simp [wf2Sub] at hwsm
    | node cm lm =>
      obtain ⟨vo, hvo⟩ := lookupOD_isSome_of_mem hm.2
      have hwso := all_of_mem hwo (mem_of_lookupOD hvo)
      cases vo with
      | term => simp [wf2Sub] at hwso
      | node co lo =>
        simp only [diffKept3, hvm, getCmds, hvo,
          ih (fun s hs => hmem s (List.mem_cons_of_mem _ hs)),
          spec3s, spec3, subChildKeys, String.append_assoc]

theorem diffKept_spec (ks : List String) (self other : ConfTree)
    (hmem : ∀ c ∈ ks, c ∈ keys self ∧ c ∈ keys other)
    (hws : wf2 self = true) (hwo : wf2 other = true) :
    diffKept self other ks = some (specSections self other ks) := by
  induction ks with
  | nil => rfl
  | cons cmd rest ih =>
    have hm := hmem cmd (by simp)
    obtain ⟨cm, mine, hvm, hwm⟩ := wf2_lookup hws hm.1
    obtain ⟨co, sother, hvo, hwo2⟩ := wf2_lookup hwo hm.2
    have hk3 : ∀ s ∈ setInter (keys sother) (keys mine), s ∈ keys mine ∧ s ∈ keys sother := by
      intro s hs
      have h2 := setInter_mem s hs
      exact ⟨h2.2, h2.1⟩
    simp only [diffKept, hvm, getCmds, hvo, printDiff_dict,
      diffKept3_spec _ mine sother hk3 hwm hwo2,
      ih (fun c hc => hmem c (List.mem_cons_of_mem _ hc)),
      specSections, specSection, String.append_assoc]

/-- Under the shape invariant the differ never dies: its output is
exactly the spec-level rendering `specDiff`. -/
theorem compare_config_spec {self other : ConfTree}
    (hws : wf2 self = true) (hwo : wf2 other = true) :
    compare_config self other = some (specDiff self other) := by
  have h1 := printDiff_conf "+" (setDiff (keys other) (keys self)) other setDiff_subset hwo
  have h2 := printDiff_conf "-" (setDiff (keys self) (keys other)) self setDiff_subset hws
  have h3 := diffKept_spec (setInter (keys other) (keys self)) self other
    (fun c hc => ⟨(setInter_mem c hc).2, (setInter_mem c hc).1⟩) hws hwo
  simp only [compare_config, h1, h2, h3, specDiff, String.append_assoc]

theorem setDiff_self (l : List String) : setDiff l l = [] := by
  have hgen : ∀ l2 : List String, (∀ x ∈ l2, x ∈ l) →
      l2.filter (fun k => !(l.contains k)) = [] := by
    intro l2
    induction l2 with
    | nil => intro h2; rfl
    | cons x rest ih =>
      intro hsub
      rw [List.filter_cons]
      have hx : l.contains x = true := List.elem_iff.mpr (hsub x (by simp))
      simp only [hx, Bool.not_true, Bool.false_eq_true, if_false]
      exact ih (fun y hy => hsub y (List.mem_cons_of_mem _ hy))
  exact hgen l (fun x hx => hx)

theorem spec3_self (m : List (String × Val)) (s : String) : spec3 m m s = "" := by
  unfold spec3
  rw [setDiff_self]
  simp

theorem spec3s_self (m : List (String × Val)) : ∀ ks, spec3s m m ks = "" := by
  intro ks
  induction ks with
  | nil => rfl
  | cons s rest ih => simp [spec3s, spec3_self, ih]

theorem specSection_self (t : ConfTree) (c : String) : specSection t t c = "" := by
  cases hl : lookupOD c t with
  | none => simp [specSection, hl]
  | some v =>
    cases v with
    | term => simp [specSection, hl]
    | node com m => simp [specSection, hl, setDiff_self, specPrintNested, spec3s_self]

theorem specSections_self (t : ConfTree) : ∀ ks, specSections t t ks = "" := by
  intro ks
  induction ks with
  | nil => rfl
  | cons c rest ih => simp [specSections, specSection_self, ih]

/-- C6: the diff of any (well-shaped) tree with itself is the empty
string: no additions, no removals, no headers. -/
theorem c6_diff_self (t : ConfTree) (h : wf2 t = true) :
    compare_config t t = some "" := by
  rw [compare_config_spec h h]
  simp [specDiff, setDiff_self, specPrintRoot, specSections_self]

theorem c6_diff_self_witness :
    compare_config
      [("router bgp 65000", Val.node [] [("vrf test", Val.node []
        [("neighbor 1.1.1.1 remote-as 1", Val.term)])])]
      [("router bgp 65000", Val.node [] [("vrf test", Val.node []
        [("neighbor 1.1.1.1 remote-as 1", Val.term)])])] = some "" :=
  c6_diff_self _ (by rfl)

/-- C7: the diff output starts with the depth-1 additions block — a
`+ <key>` line for each root key of `other` missing from `self`,
followed by the depth-2 children of that key as bare unmarked lines —
then
the symmetric `-` block against `self`, then the kept-roots sections.
On the concrete depth-1-only example the whole diff is exactly one
addition block. -/
theorem c7_root_additions :
    (∀ self other : ConfTree, wf2 self = true → wf2 other = true →
      ∃ rest : String, compare_config self other =
        some (specPrintRoot "+" (setDiff (keys other) (keys self)) other
          ++ (specPrintRoot "-" (setDiff (keys self) (keys other)) self ++ rest)))
    ∧ compare_config [("interface Eth1", Val.node [] [])]
        [("interface Eth1", Val.node [] []), ("interface Eth2", Val.node [] [])] =
      some "+ interface Eth2\n" := by
  refine ⟨fun self other hws hwo =>
    ⟨specSections self other (setInter (keys other) (keys self)), ?_⟩, by rfl⟩
  rw [compare_config_spec hws hwo]
  unfold specDiff
  rw [String.append_assoc]

theorem c7_root_additions_witness :
    ∃ rest : String,
      compare_config [("interface Eth1", Val.node [] [])]
        [("interface Eth1", Val.node [] []), ("interface Eth2", Val.node [] [])] =
      some (specPrintRoot "+"
          (setDiff (keys [("interface Eth1", Val.node [] []), ("interface Eth2", Val.node [] [])])
            (keys [("interface Eth1", Val.node [] [])]))
          [("interface Eth1", Val.node [] []), ("interface Eth2", Val.node [] [])]
        ++ (specPrintRoot "-"
          (setDiff (keys [("interface Eth1", Val.node [] [])])
            (keys [("interface Eth1", Val.node [] []), ("interface Eth2", Val.node [] [])]))
          [("interface Eth1", Val.node [] [])] ++ rest)) :=
  c7_root_additions.1 [("interface Eth1", Val.node [] [])]
    [("interface Eth1", Val.node [] []), ("interface Eth2", Val.node [] [])] (by rfl) (by rfl)

/-- C4 counterexample: a kept root `r` gains depth-2 key `s`, whose
depth-3 child is `d`.  The claim predicts the bare child line `d` after
`+ s` (output `"r\n+ s\nd\n"`); the code emits only `"r\n+ s\n"` — the
nested `_print` call receives a plain dictionary, `config.cmds` raises
`AttributeError`, and the exception handler drops the children. -/
theorem c4_counterexample :
    compare_config [("r", Val.node [] [])]
      [("r", Val.node [] [("s", Val.node [] [("d", Val.term)])])] = some "r\n+ s\n" ∧
    ("r\n+ s\n" : String) ≠ "r\n+ s\nd\n" :=
  ⟨by rfl, by decide⟩

/-- C4 (amended): for every root key present in both trees, when the
depth-2 key sets differ the root key is emitted exactly once as a
header, immediately followed by a bare `+ <key>` line per added and
`- <key>` line per removed depth-2 key — WITHOUT the depth-3 children
(the child rendering always fails with a swallowed `AttributeError`) —
as `specSection` renders; the whole output is the addition and removal
blocks followed by exactly these sections. -/
theorem c4_kept_root_sections (self other : ConfTree)
    (hws : wf2 self = true) (hwo : wf2 other = true) :
    compare_config self other =
      some (specPrintRoot "+" (setDiff (keys other) (keys self)) other
        ++ (specPrintRoot "-" (setDiff (keys self) (keys other)) self
          ++ specSections self other (setInter (keys other) (keys self)))) := by
  rw [compare_config_spec hws hwo]
  unfold specDiff
  rw [String.append_assoc]

theorem c4_kept_root_sections_witness :
    compare_config [("r", Val.node [] [])]
      [("r", Val.node [] [("s", Val.node [] [("d", Val.term)])])] =
      some (specPrintRoot "+"
          (setDiff (keys [("r", Val.node [] [("s", Val.node [] [("d", Val.term)])])])
            (keys [("r", Val.node [] [])]))
          [("r", Val.node [] [("s", Val.node [] [("d", Val.term)])])]
        ++ (specPrintRoot "-"
          (setDiff (keys [("r", Val.node [] [])])
            (keys [("r", Val.node [] [("s", Val.node [] [("d", Val.term)])])]))
          [("r", Val.node [] [])]
          ++ specSections [("r", Val.node [] [])]
            [("r", Val.node [] [("s", Val.node [] [("d", Val.term)])])]
            (setInter (keys [("r", Val.node [] [("s", Val.node [] [("d", Val.term)])])])
              (keys [("r", Val.node [] [])])))) :=
  c4_kept_root_sections _ _ (by rfl) (by rfl)

/-- C1 (code bug): in the nested-change scenario the differ emits the
`vrf test` header once and one `+` and one `-` line, and does not emit
the root header — but both marked lines carry the text `vrf test`
instead of the added/removed neighbor keys: the innermost loops print
`scmd`, leaving their loop variable unused.  The test suite of the
repository (`TestEOS.test_loading_modified_config_and_diff`) expects
the neighbor keys on these lines. -/
theorem c1_nested_diff_output :
    compare_config
      [("router bgp 65000", Val.node [] [("vrf test", Val.node []
        [("neighbor 1.1.1.1 remote-as 1", Val.term)])])]
      [("router bgp 65000", Val.node [] [("vrf test", Val.node []
        [("neighbor 1.1.1.2 remote-as 1", Val.term)])])] =
      some "vrf test\n  + vrf test\n  - vrf test\n" ∧
    ("vrf test\n  + vrf test\n  - vrf test\n" : String) ≠
      "vrf test\n  + neighbor 1.1.1.2 remote-as 1\n  - neighbor 1.1.1.1 remote-as 1\n" :=
  ⟨by rfl, by decide⟩
